import Mathlib

/-!
Verification development for the pyrosa markdown autolinker
(src/pyrosa/_core.py).

The Python module builds regular expressions by string splicing and runs
them with the `re` module.  We embed the fragment of `re` that the module
exercises: a backtracking matcher (leftmost position, first alternative in
priority order, exactly Python's semantics for the constructs the module
can produce), the scanning loop shared by re.sub / re.split / re.findall,
replacement-template parsing, and a regex-source parser covering the
syntax the module generates.  Where the parser meets a construct outside
the supported subset it returns none, the same answer it gives for source
text that Python rejects; every theorem conditioned on successful
compilation therefore speaks about the subset on which the model agrees
with Python.  Strings are modelled as lists of characters; Python
exceptions are modelled as none / error results.  Word and space
character classes are modelled over the ASCII range used throughout the
repository; error message payloads of validation are not modelled.
-/

set_option maxRecDepth 10000

abbrev Str := List Char

def str (s : String) : Str := s.data

/-- Character-class item of a compiled regex, e.g. one literal inside
a bracket class, or a shorthand class escape. -/
inductive CharSet where
  | single (c : Char)
  | range (lo hi : Char)
  | word
  | notWord
  | space
  | notSpace
  | digit
  | notDigit
  deriving DecidableEq

/-- A bracket class: optional negation and a list of items. -/
structure ClsAtom where
  neg : Bool
  items : List CharSet
  deriving DecidableEq

/-- A single-character matcher: the dot metacharacter or a class. -/
inductive Atom where
  | dot
  | cl (a : ClsAtom)
  deriving DecidableEq

/-- Compiled regex abstract syntax.  star true is greedy, star false is
lazy; lbNeg is a negative lookbehind of width one, the only lookbehind
the module produces. -/
inductive Regex where
  | eps
  | atom (a : Atom)
  | seq (p q : Regex)
  | alt (p q : Regex)
  | star (greedy : Bool) (p : Regex)
  | group (n : Nat) (p : Regex)
  | lbNeg (a : Atom)
  deriving DecidableEq

def charInSet (ic : Bool) (cs : CharSet) (c : Char) : Bool :=
  match cs with
  | .single a => if ic then a.toLower == c.toLower else a == c
  | .range lo hi =>
      (decide (lo ≤ c) && decide (c ≤ hi))
      || (ic && ((decide (lo ≤ c.toLower) && decide (c.toLower ≤ hi))
                 || (decide (lo ≤ c.toUpper) && decide (c.toUpper ≤ hi))))
  | .word => c.isAlphanum || c == '_'
  | .notWord => !(c.isAlphanum || c == '_')
  | .space => c.isWhitespace
  | .notSpace => !c.isWhitespace
  | .digit => c.isDigit
  | .notDigit => !c.isDigit

def Atom.matchesChar (ic : Bool) (a : Atom) (c : Char) : Bool :=
  match a with
  | .dot => c != '\n'
  | .cl ca => ca.neg != ca.items.any (fun cs => charInSet ic cs c)

/-- Capture state: latest binding of each group number wins. -/
abbrev Caps := List (Nat × Str)

def setCap (n : Nat) (v : Str) (caps : Caps) : Caps := (n, v) :: caps

def getCap (n : Nat) : Caps → Option Str
  | [] => none
  | (m, v) :: rest => if n = m then some v else getCap n rest

/-- All ways the regex can match a prefix of s, in Python's backtracking
priority order.  Each result is (new left context in reverse, remaining
input, captures).  left holds the characters before the current position
in reverse, so the width-one lookbehind can inspect the previous
character.  Fuel bounds the call depth; enoughFuel below always
suffices. -/
def matchList : Nat → Bool → Regex → Str → Str → Caps → List (Str × Str × Caps)
  | 0, _, _, _, _, _ => []
  | fuel + 1, ic, r, left, s, caps =>
    match r with
    | .eps => [(left, s, caps)]
    | .atom a =>
      match s with
      | [] => []
      | c :: t => if a.matchesChar ic c then [(c :: left, t, caps)] else []
    | .seq p q =>
      (matchList fuel ic p left s caps).flatMap
        (fun res => matchList fuel ic q res.1 res.2.1 res.2.2)
    | .alt p q =>
      matchList fuel ic p left s caps ++ matchList fuel ic q left s caps
    | .star true p =>
      ((matchList fuel ic p left s caps).flatMap
        (fun res =>
          if res.2.1.length < s.length then
            matchList fuel ic (.star true p) res.1 res.2.1 res.2.2
          else []))
      ++ [(left, s, caps)]
    | .star false p =>
      (left, s, caps) ::
      (matchList fuel ic p left s caps).flatMap
        (fun res =>
          if res.2.1.length < s.length then
            matchList fuel ic (.star false p) res.1 res.2.1 res.2.2
          else [])
    | .group n p =>
      (matchList fuel ic p left s caps).map
        (fun res =>
          (res.1, res.2.1,
           setCap n ((res.1.take (res.1.length - left.length)).reverse) res.2.2))
    | .lbNeg a =>
      match left with
      | [] => [(left, s, caps)]
      | c :: _ => if a.matchesChar ic c then [] else [(left, s, caps)]

def Regex.size : Regex → Nat
  | .eps => 1
  | .atom _ => 1
  | .lbNeg _ => 1
  | .seq p q => p.size + q.size + 1
  | .alt p q => p.size + q.size + 1
  | .star _ p => p.size + 1
  | .group _ p => p.size + 1

def enoughFuel (r : Regex) (s : Str) : Nat := (r.size + 2) * (s.length + 2) + 2

/-- A compiled pattern: syntax tree, number of capture groups, named
group table, and the IGNORECASE flag. -/
structure CompiledRegex where
  re : Regex
  ngroups : Nat
  names : List (Str × Nat)
  ignoreCase : Bool
  deriving DecidableEq

/-- Attempt a match anchored at the current position; Python keeps the
first alternative in priority order.  Returns remaining input and
captures. -/
def findAt (r : CompiledRegex) (left s : Str) : Option (Str × Caps) :=
  match matchList (enoughFuel r.re s) r.ignoreCase r.re left s [] with
  | [] => none
  | res :: _ => some (res.2.1, res.2.2)

/-- Leftmost match in s given the reverse left context: returns
(text before the match, matched text, captures, text after). -/
def searchSplit (r : CompiledRegex) : Str → Str → Option (Str × Str × Caps × Str)
  | left, s =>
    match findAt r left s with
    | some (rest, caps) => some ([], s.take (s.length - rest.length), caps, rest)
    | none =>
      match s with
      | [] => none
      | c :: t =>
        match searchSplit r (c :: left) t with
        | none => none
        | some (p, m, cp, rest) => some (c :: p, m, cp, rest)

def shiftChar (c : Char) :
    List (Str × Str × Caps) × Str → List (Str × Str × Caps) × Str
  | ([], tail) => ([], c :: tail)
  | ((p, m, cp) :: rest, tail) => ((c :: p, m, cp) :: rest, tail)

/-- The scanning loop underlying re.sub, re.split and re.findall:
repeatedly take the leftmost match; after a zero-width match copy one
character and continue one position further (Python's rule since 3.7).
Returns the list of (gap, match, captures) segments and the unmatched
tail. -/
def scan (r : CompiledRegex) : Nat → Str → Str → List (Str × Str × Caps) × Str
  | 0, _, s => ([], s)
  | fuel + 1, left, s =>
    match searchSplit r left s with
    | none => ([], s)
    | some (p, m, caps, rest) =>
      let left2 := List.reverseAux m (List.reverseAux p left)
      if m.isEmpty then
        match rest with
        | [] => ([(p, m, caps)], [])
        | c :: rest2 =>
          let next := shiftChar c (scan r fuel (c :: left2) rest2)
          ((p, m, caps) :: next.1, next.2)
      else
        let next := scan r fuel left2 rest
        ((p, m, caps) :: next.1, next.2)

def scanAll (r : CompiledRegex) (s : Str) : List (Str × Str × Caps) × Str :=
  scan r (s.length + 1) [] s

/-- re.search as a boolean test. -/
def reSearch (r : CompiledRegex) (s : Str) : Bool :=
  (searchSplit r [] s).isSome

/-- re.split for a pattern without capture groups (the only way the
module calls it): the gaps between matches plus the tail. -/
def reSplitL (r : CompiledRegex) (s : Str) : List Str :=
  let sc := scanAll r s
  sc.1.map (fun seg => seg.1) ++ [sc.2]

/-- re.findall: with exactly one capture group Python returns that
group's captures, otherwise (for the module: zero groups) the matched
text. -/
def reFindallL (r : CompiledRegex) (s : Str) : List Str :=
  let sc := scanAll r s
  if r.ngroups == 1 then
    sc.1.map (fun seg => (getCap 1 seg.2.2).getD [])
  else
    sc.1.map (fun seg => seg.2.1)

/-- One piece of a parsed replacement template: a literal character or a
back-reference to a capture group. -/
inductive TItem where
  | lit (c : Char)
  | ref (n : Nat)
  deriving DecidableEq

def natOfDigits (ds : Str) : Nat :=
  ds.foldl (fun acc c => acc * 10 + (c.toNat - 48)) 0

def lookupName (nm : Str) : List (Str × Nat) → Option Nat
  | [] => none
  | (k, v) :: rest => if nm = k then some v else lookupName nm rest

/-- Resolve the name between angle brackets of a template group
reference, as Python does: all digits means a group number, otherwise a
named group of the pattern; unknown references are errors. -/
def refOfName (r : CompiledRegex) (nm : Str) : Option Nat :=
  if nm ≠ [] && nm.all (fun c => c.isDigit) then
    let n := natOfDigits nm
    if 1 ≤ n && n ≤ r.ngroups then some n else none
  else lookupName nm r.names

def takeToGt (cs : Str) : Option (Str × Str) :=
  match cs.dropWhile (fun c => c ≠ '>') with
  | '>' :: rest => some (cs.takeWhile (fun c => c ≠ '>'), rest)
  | _ => none

/-- Parse a replacement template against a compiled pattern, mirroring
Python's rules: backslash-g with a name, backslash-digit, doubled
backslash, a few control escapes; an alphabetic escape is an error, an
escaped punctuation character keeps the backslash. -/
def parseTemplateAux (r : CompiledRegex) : Nat → Str → Option (List TItem)
  | 0, _ => none
  | _ + 1, [] => some []
  | fuel + 1, '\\' :: rest =>
    match rest with
    | [] => none
    | 'g' :: rest2 =>
      match rest2 with
      | '<' :: rest3 =>
        match takeToGt rest3 with
        | none => none
        | some (nm, rest4) =>
          match refOfName r nm with
          | none => none
          | some n =>
            match parseTemplateAux r fuel rest4 with
            | none => none
            | some items => some (.ref n :: items)
      | _ => none
    | '\\' :: rest2 =>
      (parseTemplateAux r fuel rest2).map (fun items => .lit '\\' :: items)
    | 'n' :: rest2 => (parseTemplateAux r fuel rest2).map (fun items => .lit '\n' :: items)
    | 't' :: rest2 => (parseTemplateAux r fuel rest2).map (fun items => .lit '\t' :: items)
    | 'r' :: rest2 => (parseTemplateAux r fuel rest2).map (fun items => .lit '\r' :: items)
    | c :: rest2 =>
      if c.isDigit then
        match rest2 with
        | d :: _ =>
          if d.isDigit then none
          else
            let n := c.toNat - 48
            if 1 ≤ n && n ≤ r.ngroups then
              (parseTemplateAux r fuel rest2).map (fun items => .ref n :: items)
            else none
        | [] =>
          let n := c.toNat - 48
          if 1 ≤ n && n ≤ r.ngroups then some [.ref n] else none
      else if c.isAlpha then none
      else
        (parseTemplateAux r fuel rest2).map (fun items => .lit '\\' :: .lit c :: items)
  | fuel + 1, c :: rest => (parseTemplateAux r fuel rest).map (fun items => .lit c :: items)

def parseTemplate (r : CompiledRegex) (t : Str) : Option (List TItem) :=
  parseTemplateAux r (t.length + 1) t

/-- Instantiate a parsed template with the captures of one match; a
reference to a group that did not participate is an error, as in
Python. -/
def applyTemplate (items : List TItem) (caps : Caps) : Option Str :=
  match items with
  | [] => some []
  | .lit c :: rest => (applyTemplate rest caps).map (fun t => c :: t)
  | .ref n :: rest =>
    match getCap n caps with
    | none => none
    | some v => (applyTemplate rest caps).map (fun t => v ++ t)

/-- Option-valued map over a list, stopping at the first failure; the
shape of every fallible loop in the model. -/
def omapM (f : α → Option β) : List α → Option (List β)
  | [] => some []
  | a :: l =>
    match f a with
    | none => none
    | some b =>
      match omapM f l with
      | none => none
      | some bs => some (b :: bs)

/-- re.sub with a string template: none models a raised re.error. -/
def reSubL (r : CompiledRegex) (tmpl : Str) (s : Str) : Option Str :=
  match parseTemplate r tmpl with
  | none => none
  | some items =>
    let sc := scanAll r s
    match omapM (fun seg => (applyTemplate items seg.2.2).map (fun rep => seg.1 ++ rep)) sc.1 with
    | none => none
    | some parts => some (parts.flatten ++ sc.2)

/-- Escape inside a bracket class: shorthand classes, a few control
escapes, escaped punctuation; alphanumeric escapes outside this table
are errors, as in Python. -/
def classEscape (c : Char) : Option CharSet :=
  if c = 'w' then some .word
  else if c = 'W' then some .notWord
  else if c = 's' then some .space
  else if c = 'S' then some .notSpace
  else if c = 'd' then some .digit
  else if c = 'D' then some .notDigit
  else if c = 'n' then some (.single '\n')
  else if c = 't' then some (.single '\t')
  else if c = 'r' then some (.single '\r')
  else if c.isAlphanum then none
  else some (.single c)

/-- Items of a bracket class up to the closing bracket.  Ranges are
supported between plain characters only; a range touching an escape is
rejected (Python rejects the class-escape cases and the rest never
occurs in this repository). -/
def parseClassItems : Nat → Str → List CharSet → Option (List CharSet × Str)
  | 0, _, _ => none
  | fuel + 1, cs, acc =>
    match cs with
    | [] => none
    | ']' :: rest => some (acc.reverse, rest)
    | '\\' :: c :: rest =>
      match classEscape c with
      | none => none
      | some item =>
        match rest with
        | '-' :: d :: _ =>
          if d = ']' then parseClassItems fuel rest (item :: acc) else none
        | _ => parseClassItems fuel rest (item :: acc)
    | '\\' :: [] => none
    | c :: '-' :: d :: rest =>
      if d = ']' then parseClassItems fuel ('-' :: d :: rest) (.single c :: acc)
      else if d = '\\' then none
      else if c ≤ d then parseClassItems fuel rest (.range c d :: acc)
      else none
    | c :: rest => parseClassItems fuel rest (.single c :: acc)

/-- A bracket class, given the text after the opening bracket: optional
negation, a leading closing bracket taken literally, then items. -/
def parseClass (fuel : Nat) (cs : Str) : Option (ClsAtom × Str) :=
  let negcs : Bool × Str :=
    match cs with
    | '^' :: t => (true, t)
    | _ => (false, cs)
  let acccs : List CharSet × Str :=
    match negcs.2 with
    | ']' :: '-' :: d :: t =>
      if d = ']' then ([CharSet.single ']'], '-' :: d :: t) else ([], negcs.2)
    | ']' :: t => ([CharSet.single ']'], t)
    | _ => ([], negcs.2)
  match negcs.2, acccs.1 with
  | ']' :: '-' :: d :: _, [] =>
    if d = ']' then none else none
  | _, _ =>
    match parseClassItems fuel acccs.2 acccs.1 with
    | none => none
    | some (items, rest) => some (⟨negcs.1, items⟩, rest)

def Regex.hasGroup : Regex → Bool
  | .eps => false
  | .atom _ => false
  | .lbNeg _ => false
  | .seq p q => p.hasGroup || q.hasGroup
  | .alt p q => p.hasGroup || q.hasGroup
  | .star _ p => p.hasGroup
  | .group _ _ => true

def Regex.nullable : Regex → Bool
  | .eps => true
  | .atom _ => false
  | .lbNeg _ => true
  | .seq p q => p.nullable && q.nullable
  | .alt p q => p.nullable || q.nullable
  | .star _ _ => true
  | .group _ p => p.nullable

/-- Build one repetition.  Repetition of a possibly-empty expression and
a starred or optional capture group are outside the supported subset and
rejected: on such sources the model refuses where Python may accept. -/
def mkRep (a : Regex) (c : Char) (lzy : Bool) : Option Regex :=
  if a.nullable then none
  else if c = '*' then (if a.hasGroup then none else some (.star (!lzy) a))
  else if c = '+' then some (.seq a (.star (!lzy) a))
  else if c = '?' then
    (if a.hasGroup then none
     else some (if lzy then .alt .eps a else .alt a .eps))
  else none

def isRepChar (c : Char) : Bool := c = '*' || c = '+' || c = '?'

def applyPostfix (a : Regex) (cs : Str) : Option (Regex × Str) :=
  match cs with
  | [] => some (a, [])
  | c :: rest =>
    if isRepChar c then
      match rest with
      | '?' :: rest2 =>
        match mkRep a c true with
        | none => none
        | some a2 =>
          match rest2 with
          | d :: _ => if isRepChar d then none else some (a2, rest2)
          | [] => some (a2, rest2)
      | _ =>
        match mkRep a c false with
        | none => none
        | some a2 =>
          match rest with
          | d :: _ => if isRepChar d then none else some (a2, rest)
          | [] => some (a2, rest)
    else some (a, cs)

def specialChar (c : Char) : Bool :=
  c = '(' || c = ')' || c = '[' || c = '\\' || c = '.' || c = '*' || c = '+'
  || c = '?' || c = '|' || c = '{' || c = '^' || c = '$'

def plainAtom (c : Char) : Atom := .cl ⟨false, [.single c]⟩

/-- Escape outside a class: same table as inside, delivered as an
atom. -/
def patEscape (c : Char) : Option Atom :=
  if c.isAlphanum then (classEscape c).map (fun cs => Atom.cl ⟨false, [cs]⟩)
  else some (plainAtom c)

def readGroupName (cs : Str) : Option (Str × Str) :=
  match takeToGt cs with
  | none => none
  | some (nm, rest) =>
    match nm with
    | [] => none
    | c0 :: crest =>
      if (c0.isAlpha || c0 = '_') && crest.all (fun c => c.isAlphanum || c = '_') then
        some (nm, rest)
      else none

/-- Body of the negative lookbehind: a single width-one atom. -/
def parseLbBody (cs : Str) : Option (Atom × Str) :=
  match cs with
  | [] => none
  | '[' :: rest =>
    match parseClass (rest.length + 1) rest with
    | none => none
    | some (ca, rest2) => some (.cl ca, rest2)
  | '\\' :: c :: rest => (patEscape c).map (fun a => (a, rest))
  | '\\' :: [] => none
  | '.' :: rest => some (.dot, rest)
  | c :: rest => if specialChar c then none else some (plainAtom c, rest)

/-- A parser context: the next free group number and the named-group
table, numbered in order of opening parentheses as in Python. -/
structure PCtx where
  nextg : Nat
  names : List (Str × Nat)

/-- Recursive-descent parser for the regex-source subset the module can
generate: literals, escapes, classes, dot, greedy and lazy repetition,
plain and named and non-capturing groups, and the width-one negative
lookbehind.  Alternation, anchors, counted repetition and the other
constructs are outside the subset and yield none, as do the sources
Python itself rejects (unbalanced brackets, bad escapes, bad or
duplicate group names, nothing to repeat, multiple repeat). -/
def parseRe : Nat → Str → PCtx → Option (Regex × Str × PCtx)
  | 0, _, _ => none
  | fuel + 1, cs, ctx =>
    match cs with
    | [] => some (.eps, [], ctx)
    | ')' :: rest => some (.eps, ')' :: rest, ctx)
    | _ =>
      let step : Option (Regex × Str × PCtx) :=
        match cs with
        | '(' :: rest =>
          (match rest with
           | '?' :: 'P' :: '<' :: rest2 =>
             (match readGroupName rest2 with
              | none => none
              | some (nm, rest3) =>
                if (lookupName nm ctx.names).isSome then none
                else
                  match parseRe fuel rest3 ⟨ctx.nextg + 1, (nm, ctx.nextg) :: ctx.names⟩ with
                  | some (r, ')' :: rest4, ctx2) => some (Regex.group ctx.nextg r, rest4, ctx2)
                  | _ => none)
           | '?' :: ':' :: rest2 =>
             (match parseRe fuel rest2 ctx with
              | some (r, ')' :: rest3, ctx2) => some (r, rest3, ctx2)
              | _ => none)
           | '?' :: '<' :: '!' :: rest2 =>
             (match parseLbBody rest2 with
              | some (a, ')' :: rest3) => some (Regex.lbNeg a, rest3, ctx)
              | _ => none)
           | '?' :: _ => none
           | _ =>
             match parseRe fuel rest ⟨ctx.nextg + 1, ctx.names⟩ with
             | some (r, ')' :: rest4, ctx2) => some (Regex.group ctx.nextg r, rest4, ctx2)
             | _ => none)
        | '[' :: rest =>
          (match parseClass (rest.length + 1) rest with
           | none => none
           | some (ca, rest2) => some (.atom (.cl ca), rest2, ctx))
        | '\\' :: c :: rest => (patEscape c).map (fun a => (.atom a, rest, ctx))
        | '\\' :: [] => none
        | '.' :: rest => some (.atom .dot, rest, ctx)
        | c :: rest =>
          if specialChar c then none else some (.atom (plainAtom c), rest, ctx)
        | [] => none
      match step with
      | none => none
      | some (a, rest2, ctx2) =>
        match applyPostfix a rest2 with
        | none => none
        | some (a2, rest3) =>
          match parseRe fuel rest3 ctx2 with
          | none => none
          | some (r, rest4, ctx3) => some (.seq a2 r, rest4, ctx3)

/-- re.compile over the supported subset. -/
def compileRe (src : Str) (ic : Bool) : Option CompiledRegex :=
  match parseRe (src.length + 1) src ⟨1, []⟩ with
  | some (r, [], ctx) => some ⟨r, ctx.nextg - 1, ctx.names, ic⟩
  | _ => none

/-- Regex capture group marker used for the full reference
(FULL_REF_TAG in _core.py). -/
def FULL_REF_TAG : Str := str "__ARGREF_ORIGINAL_TEXT__"

/-- Source text of VARIABLE_PATTERN in _core.py. -/
def VARIABLE_PATTERN_SRC : Str := str "(<\\S+?>)"

/-- Source text of LINK_PATTERN in _core.py. -/
def LINK_PATTERN_SRC : Str := str "\\[.+?\\]\\(.*?\\)"

def defaultCR : CompiledRegex := ⟨.eps, 0, [], false⟩

/-- The compiled module-level pattern for variable tokens; the lemma
variablePattern_compiles below checks the compilation succeeds. -/
def VARIABLE_PATTERN_C : CompiledRegex :=
  (compileRe VARIABLE_PATTERN_SRC false).getD defaultCR

/-- The compiled module-level pattern for markdown links. -/
def LINK_PATTERN_C : CompiledRegex :=
  (compileRe LINK_PATTERN_SRC false).getD defaultCR

/-- The template string of _get_find_pattern's inner re.sub, the Python
raw string (?P backslash 1 [- backslash backslash w]+). -/
def FIND_SUB_TEMPLATE : Str := str "(?P\\1[-\\\\w]+)"

/-- The template string of _get_replace_pattern's re.sub, the Python raw
string backslash backslash g backslash 1. -/
def REPLACE_SUB_TEMPLATE : Str := str "\\\\g\\1"

/-- The regex source string built by MarkdownAutoLinker._get_find_pattern
before compilation: variable tokens become named groups, everything else
is spliced verbatim, and the result is wrapped in the lookbehind and the
full-reference group.  none models an exception escaping the inner
re.sub (never reached in practice). -/
def findPatternSrcOf (reference : Str) : Option Str :=
  (reSubL VARIABLE_PATTERN_C FIND_SUB_TEMPLATE reference).map
    (fun body => str "(?<![#\\[/])(?P<" ++ FULL_REF_TAG ++ str ">" ++ body ++ str ")")

/-- MarkdownAutoLinker._get_find_pattern: build the source then compile
with IGNORECASE; none models re.error. -/
def getFindPattern (reference : Str) : Option CompiledRegex :=
  match findPatternSrcOf reference with
  | none => none
  | some src => compileRe src true

/-- MarkdownAutoLinker._get_replace_pattern: the link template with every
variable token turned into a named back-reference. -/
def getReplacePattern (target_url : Str) : Option Str :=
  reSubL VARIABLE_PATTERN_C REPLACE_SUB_TEMPLATE
    (str "[<" ++ FULL_REF_TAG ++ str ">](" ++ target_url ++ str ")")

/-- The compiled state of one MarkdownAutoLinker instance. -/
structure MarkdownAutoLinker where
  find_pattern : CompiledRegex
  replace_pattern : Str

/-- MarkdownAutoLinker.__init__; none models an exception raised while
compiling the find pattern. -/
def MarkdownAutoLinker.make (reference target_url : Str) : Option MarkdownAutoLinker :=
  match getFindPattern reference with
  | none => none
  | some fp =>
    match getReplacePattern target_url with
    | none => none
    | some rp => some ⟨fp, rp⟩

/-- MarkdownAutoLinker.has_reference. -/
def MarkdownAutoLinker.has_reference (al : MarkdownAutoLinker) (markdown : Str) : Bool :=
  reSearch al.find_pattern markdown

/-- MarkdownAutoLinker.replace_all_references: without link skipping a
single global substitution; with link skipping the text is split on
LINK_PATTERN, each gap is substituted and re-joined with the links found
by findall plus a trailing empty string.  none models re.error raised by
re.sub. -/
def MarkdownAutoLinker.replace_all_references
    (al : MarkdownAutoLinker) (markdown : Str) (skip_links : Bool) : Option Str :=
  if skip_links then
    let pieces := reSplitL LINK_PATTERN_C markdown
    let urls := reFindallL LINK_PATTERN_C markdown ++ [[]]
    match omapM
        (fun pu => (reSubL al.find_pattern al.replace_pattern pu.1).map (fun x => x ++ pu.2))
        (pieces.zip urls) with
    | none => none
    | some buf => some buf.flatten
  else reSubL al.find_pattern al.replace_pattern markdown

/-- replace_autolink_references in _core.py: construct one autolinker
per definition, substitute when the reference occurs, and feed the
result to the next definition.  none models any exception raised along
the way. -/
def replace_autolink_references
    (markdown : Str) (autolinks : List (Str × Str)) (skip_links : Bool) : Option Str :=
  match autolinks with
  | [] => some markdown
  | (ref_prefixv, target_url) :: rest =>
    match MarkdownAutoLinker.make ref_prefixv target_url with
    | none => none
    | some al =>
      match (if al.has_reference markdown
             then al.replace_all_references markdown skip_links
             else some markdown) with
      | none => none
      | some result => replace_autolink_references result rest skip_links

/-- One autolinks entry as a typed dictionary: none models a missing
key.  The field referencePrefixStr models the reference_prefix key. -/
structure AEntry where
  referencePrefixStr : Option Str
  target_url : Option Str
  deriving DecidableEq

/-- The value handed to AutoLinkOption.run_validation: either a list of
entries or something that is not a list. -/
inductive ConfigValue where
  | listVal (entries : List AEntry)
  | nonList
  deriving DecidableEq

/-- Validation outcome; err models a raised ValidationError (the message
payload is not modelled). -/
inductive VResult where
  | ok (v : ConfigValue)
  | err
  deriving DecidableEq

def VResult.isErr : VResult → Bool
  | .ok _ => false
  | .err => true

inductive EntriesResult where
  | ok (entries : List AEntry)
  | err
  deriving DecidableEq

/-- Substring test, modelling the Python string membership operator. -/
def listIsPref : Str → Str → Bool
  | [], _ => true
  | _ :: _, [] => false
  | a :: as_, b :: bs => a == b && listIsPref as_ bs

def containsSub (needle hay : Str) : Bool :=
  match hay with
  | [] => needle.isEmpty
  | _ :: t => listIsPref needle hay || containsSub needle t

/-- The loop body sequence of AutoLinkOption.run_validation: check both
keys, collect the variable tokens, fall back to the implicit num token
(also appending it to the stored prefix), and require every token to
occur in target_url. -/
def validateEntries : List AEntry → EntriesResult
  | [] => .ok []
  | e :: rest =>
    match e.referencePrefixStr with
    | none => .err
    | some rp =>
      match e.target_url with
      | none => .err
      | some tu =>
        let vars := reFindallL VARIABLE_PATTERN_C rp
        let vars2 := if vars.isEmpty then [str "<num>"] else vars
        let rp2 := if vars.isEmpty then rp ++ str "<num>" else rp
        if vars2.all (fun v => containsSub v tu) then
          match validateEntries rest with
          | .ok es => .ok (⟨some rp2, some tu⟩ :: es)
          | .err => .err
        else .err

/-- AutoLinkOption.run_validation. -/
def run_validation : ConfigValue → VResult
  | .nonList => .err
  | .listVal es =>
    match validateEntries es with
    | .ok es2 => .ok (.listVal es2)
    | .err => .err

/-- Capture groups guaranteed to participate in every successful match
of the regex. -/
def guar : Regex → List Nat
  | .eps => []
  | .atom _ => []
  | .lbNeg _ => []
  | .seq p q => guar p ++ guar q
  | .alt p q => (guar p).inter (guar q)
  | .star _ _ => []
  | .group n p => n :: guar p

def TItem.refOk (g : List Nat) : TItem → Bool
  | .lit _ => true
  | .ref n => decide (n ∈ g)

/-- Decidable check that the parsed replacement template of an
autolinker refers only to groups guaranteed to capture. -/
def tmplRefsOk (al : MarkdownAutoLinker) : Bool :=
  match parseTemplate al.find_pattern al.replace_pattern with
  | none => false
  | some items => items.all (fun it => TItem.refOk (guar al.find_pattern.re) it)

/-- The rejection condition for one entry, as the specification states
it: a missing reference_prefix key, a missing target_url key, or some
declared variable token (the implicit num token when none is declared)
that does not occur in target_url. -/
def entryInvalid (e : AEntry) : Bool :=
  match e.referencePrefixStr with
  | none => true
  | some rp =>
    match e.target_url with
    | none => true
    | some tu =>
      let vars := reFindallL VARIABLE_PATTERN_C rp
      let vars2 := if vars.isEmpty then [str "<num>"] else vars
      !(vars2.all (fun v => containsSub v tu))

/-- The rejection condition for a whole configuration value. -/
def configInvalid : ConfigValue → Bool
  | .nonList => true
  | .listVal es => es.any entryInvalid

theorem variablePattern_compiles :
    compileRe VARIABLE_PATTERN_SRC false = some VARIABLE_PATTERN_C := by decide

theorem linkPattern_compiles :
    compileRe LINK_PATTERN_SRC false = some LINK_PATTERN_C := by decide

/-- Every way a regex matches consumes a prefix: the remaining input is
a suffix decomposition of the input. -/
theorem matchList_decomp :
    ∀ (fuel : Nat) (ic : Bool) (r : Regex) (left s : Str) (caps : Caps),
      ∀ res ∈ matchList fuel ic r left s caps, ∃ pre, s = pre ++ res.2.1 := by
  intro fuel
  induction fuel with
  | zero => intro ic r left s caps res h; simp [matchList] at h
  | succ fuel ih =>
    intro ic r left s caps res h
    cases r with
    | eps =>
      simp only [matchList, List.mem_singleton] at h
      exact ⟨[], by simp [h]⟩
    | atom a =>
      simp only [matchList] at h
      cases s with
      | nil => simp at h
      | cons c t =>
        by_cases hm : a.matchesChar ic c = true
        · simp [hm] at h
          exact ⟨[c], by simp [h]⟩
        · simp [hm] at h
    | seq p q =>
      simp only [matchList, List.mem_flatMap] at h
      obtain ⟨mid, hmid, hres⟩ := h
      obtain ⟨pre1, h1⟩ := ih ic p left s caps mid hmid
      obtain ⟨pre2, h2⟩ := ih ic q mid.1 mid.2.1 mid.2.2 res hres
      exact ⟨pre1 ++ pre2, by rw [h1, h2, List.append_assoc]⟩
    | alt p q =>
      simp only [matchList, List.mem_append] at h
      rcases h with h | h
      · exact ih ic p left s caps res h
      · exact ih ic q left s caps res h
    | star greedy p =>
      cases greedy with
      | true =>
        simp only [matchList, List.mem_append, List.mem_flatMap, List.mem_singleton] at h
        rcases h with ⟨mid, hmid, hres⟩ | h
        · obtain ⟨pre1, h1⟩ := ih ic p left s caps mid hmid
          by_cases hlt : mid.2.1.length < s.length
          · simp [hlt] at hres
            obtain ⟨pre2, h2⟩ := ih ic (.star true p) mid.1 mid.2.1 mid.2.2 res hres
            exact ⟨pre1 ++ pre2, by rw [h1, h2, List.append_assoc]⟩
          · simp [hlt] at hres
        · exact ⟨[], by simp [h]⟩
      | false =>
        simp only [matchList, List.mem_cons, List.mem_flatMap] at h
        rcases h with h | ⟨mid, hmid, hres⟩
        · exact ⟨[], by simp [h]⟩
        · obtain ⟨pre1, h1⟩ := ih ic p left s caps mid hmid
          by_cases hlt : mid.2.1.length < s.length
          · simp [hlt] at hres
            obtain ⟨pre2, h2⟩ := ih ic (.star false p) mid.1 mid.2.1 mid.2.2 res hres
            exact ⟨pre1 ++ pre2, by rw [h1, h2, List.append_assoc]⟩
          · simp [hlt] at hres
    | group n p =>
      simp only [matchList, List.mem_map] at h
      obtain ⟨mid, hmid, hres⟩ := h
      obtain ⟨pre1, h1⟩ := ih ic p left s caps mid hmid
      exact ⟨pre1, by rw [h1, ← hres]⟩
    | lbNeg a =>
      simp only [matchList] at h
      cases left with
      | nil =>
        simp at h
        exact ⟨[], by simp [h]⟩
      | cons c t =>
        by_cases hm : a.matchesChar ic c = true
        · simp [hm] at h
        · simp [hm] at h
          exact ⟨[], by simp [h]⟩

theorem findAt_decomp (r : CompiledRegex) (left s rest : Str) (caps : Caps)
    (h : findAt r left s = some (rest, caps)) : ∃ pre, s = pre ++ rest := by
  unfold findAt at h
  cases hm : matchList (enoughFuel r.re s) r.ignoreCase r.re left s [] with
  | nil => rw [hm] at h; simp at h
  | cons res tl =>
    rw [hm] at h
    simp at h
    have := matchList_decomp (enoughFuel r.re s) r.ignoreCase r.re left s [] res
      (by rw [hm]; exact List.mem_cons_self _ _)
    obtain ⟨pre, hpre⟩ := this
    refine ⟨pre, ?_⟩
    have hr : res.2.1 = rest := congrArg Prod.fst h
    rw [← hr]
    exact hpre

theorem searchSplit_decomp (r : CompiledRegex) :
    ∀ (s left p m : Str) (cp : Caps) (rest : Str),
      searchSplit r left s = some (p, m, cp, rest) → s = p ++ m ++ rest := by
  intro s
  induction s with
  | nil =>
    intro left p m cp rest h
    simp only [searchSplit] at h
    cases hf : findAt r left [] with
    | none => rw [hf] at h; simp at h
    | some v =>
      rw [hf] at h
      obtain ⟨rst, caps⟩ := v
      obtain ⟨pre, hpre⟩ := findAt_decomp r left [] rst caps hf
      have hrst : rst = [] := by
        cases pre with
        | nil => exact hpre.symm
        | cons a b => exact absurd hpre (by simp)
      injection h with h2
      simp only [Prod.mk.injEq] at h2
      obtain ⟨hp, hm2, hcp, hrest⟩ := h2
      subst hp
      subst hm2
      subst hrest
      simp [hrst]
  | cons c t ihs =>
    intro left p m cp rest h
    simp only [searchSplit] at h
    cases hf : findAt r left (c :: t) with
    | none =>
      rw [hf] at h
      cases hr : searchSplit r (c :: left) t with
      | none => rw [hr] at h; simp at h
      | some v =>
        rw [hr] at h
        obtain ⟨p2, m2, cp2, rest2⟩ := v
        have ht := ihs (c :: left) p2 m2 cp2 rest2 hr
        simp at h
        rw [← h.1, ← h.2.1, ← h.2.2.2]
        simp [ht]
    | some v =>
      rw [hf] at h
      obtain ⟨rst, caps⟩ := v
      obtain ⟨pre, hpre⟩ := findAt_decomp r left (c :: t) rst caps hf
      injection h with h2
      simp only [Prod.mk.injEq] at h2
      obtain ⟨hp, hm2, hcp, hrest⟩ := h2
      subst hp
      subst hm2
      subst hrest
      have hlen : (c :: t).length - rst.length = pre.length := by
        rw [hpre, List.length_append, Nat.add_sub_cancel]
      rw [List.nil_append, hlen, hpre, List.take_left]

/-- The scanning loop decomposes its input exactly: gaps, matches and
tail concatenate back to the input string. -/
theorem scan_join (r : CompiledRegex) :
    ∀ (fuel : Nat) (left s : Str),
      ((scan r fuel left s).1.map (fun seg => seg.1 ++ seg.2.1)).flatten
        ++ (scan r fuel left s).2 = s := by
  intro fuel
  induction fuel with
  | zero => intro left s; simp [scan]
  | succ fuel ih =>
    intro left s
    simp only [scan]
    cases hss : searchSplit r left s with
    | none => simp
    | some v =>
      obtain ⟨p, m, caps, rest⟩ := v
      have hdec := searchSplit_decomp r s left p m caps rest hss
      by_cases hm : m.isEmpty
      · have hmnil : m = [] := by
          cases m with
          | nil => rfl
          | cons a b => simp [List.isEmpty] at hm
        cases rest with
        | nil =>
          simp [hm, hdec, hmnil]
        | cons c rest2 =>
          simp only [hm, if_true]
          have ihr := ih (c :: List.reverseAux m (List.reverseAux p left)) rest2
          cases hsc : scan r fuel (c :: List.reverseAux m (List.reverseAux p left)) rest2 with
          | mk segs tail =>
            rw [hsc] at ihr
            cases segs with
            | nil =>
              simp at ihr
              simp [shiftChar, hdec, hmnil, ihr]
            | cons g gs =>
              obtain ⟨gp, gm, gc⟩ := g
              simp only [shiftChar]
              simp at ihr ⊢
              rw [hdec, hmnil]
              simp [← ihr]
      · simp only [hm, if_false]
        have ihr := ih (List.reverseAux m (List.reverseAux p left)) rest
        simp at ihr ⊢
        rw [hdec]
        simp [ihr]

theorem link_reconstruct :
    ∀ s : Str,
      (List.zipWith (fun a b => a ++ b) (reSplitL LINK_PATTERN_C s)
        (reFindallL LINK_PATTERN_C s ++ [[]])).flatten = s := by
  intro s
  have hng : (LINK_PATTERN_C.ngroups == 1) = false := by decide
  simp only [reSplitL, reFindallL, hng, Bool.false_eq_true, if_false]
  rw [List.zipWith_append _ _ _ _ _ (by simp)]
  rw [List.zipWith_map_left, List.zipWith_map_right]
  simp only [List.zipWith_same]
  simp only [List.zipWith_cons_cons, List.zipWith_nil_right, List.append_nil]
  rw [List.flatten_append]
  simpa using scan_join LINK_PATTERN_C (s.length + 1) [] s

/-- Captures only accumulate, and a successful match binds every
guaranteed group. -/
theorem matchList_caps :
    ∀ (fuel : Nat) (ic : Bool) (r : Regex) (left s : Str) (caps : Caps),
      ∀ res ∈ matchList fuel ic r left s caps,
        ∀ n, (n ∈ guar r ∨ (getCap n caps).isSome = true) →
          (getCap n res.2.2).isSome = true := by
  intro fuel
  induction fuel with
  | zero => intro ic r left s caps res h; simp [matchList] at h
  | succ fuel ih =>
    intro ic r left s caps res h n hn
    cases r with
    | eps =>
      simp only [matchList, List.mem_singleton] at h
      rcases hn with hn | hn
      · simp [guar] at hn
      · simp [h, hn]
    | atom a =>
      simp only [matchList] at h
      cases s with
      | nil => simp at h
      | cons c t =>
        rcases hn with hn | hn
        · simp [guar] at hn
        · by_cases hmc : a.matchesChar ic c = true
          · simp [hmc] at h; simp [h, hn]
          · simp [hmc] at h
    | seq p q =>
      simp only [matchList, List.mem_flatMap] at h
      obtain ⟨mid, hmid, hres⟩ := h
      rcases hn with hn | hn
      · rw [guar, List.mem_append] at hn
        rcases hn with hn | hn
        · have hmidc := ih ic p left s caps mid hmid n (Or.inl hn)
          exact ih ic q mid.1 mid.2.1 mid.2.2 res hres n (Or.inr hmidc)
        · exact ih ic q mid.1 mid.2.1 mid.2.2 res hres n (Or.inl hn)
      · have hmidc := ih ic p left s caps mid hmid n (Or.inr hn)
        exact ih ic q mid.1 mid.2.1 mid.2.2 res hres n (Or.inr hmidc)
    | alt p q =>
      simp only [matchList, List.mem_append] at h
      rcases h with h | h
      · rcases hn with hn | hn
        · exact ih ic p left s caps res h n (Or.inl (List.mem_inter_iff.mp hn).1)
        · exact ih ic p left s caps res h n (Or.inr hn)
      · rcases hn with hn | hn
        · exact ih ic q left s caps res h n (Or.inl (List.mem_inter_iff.mp hn).2)
        · exact ih ic q left s caps res h n (Or.inr hn)
    | star greedy p =>
      have hcap : (getCap n caps).isSome = true := by
        rcases hn with hn | hn
        · simp [guar] at hn
        · exact hn
      cases greedy with
      | true =>
        simp only [matchList, List.mem_append, List.mem_flatMap, List.mem_singleton] at h
        rcases h with ⟨mid, hmid, hres⟩ | h
        · by_cases hlt : mid.2.1.length < s.length
          · simp [hlt] at hres
            have hmidc := ih ic p left s caps mid hmid n (Or.inr hcap)
            exact ih ic (.star true p) mid.1 mid.2.1 mid.2.2 res hres n (Or.inr hmidc)
          · simp [hlt] at hres
        · simp [h, hcap]
      | false =>
        simp only [matchList, List.mem_cons, List.mem_flatMap] at h
        rcases h with h | ⟨mid, hmid, hres⟩
        · simp [h, hcap]
        · by_cases hlt : mid.2.1.length < s.length
          · simp [hlt] at hres
            have hmidc := ih ic p left s caps mid hmid n (Or.inr hcap)
            exact ih ic (.star false p) mid.1 mid.2.1 mid.2.2 res hres n (Or.inr hmidc)
          · simp [hlt] at hres
    | group ng p =>
      simp only [matchList, List.mem_map] at h
      obtain ⟨mid, hmid, hres⟩ := h
      by_cases hng : n = ng
      · rw [← hres]
        simp [setCap, getCap, hng]
      · have hmem : n ∈ guar p ∨ (getCap n caps).isSome = true := by
          rcases hn with hn | hn
          · rw [guar, List.mem_cons] at hn
            rcases hn with hn | hn
            · exact absurd hn hng
            · exact Or.inl hn
          · exact Or.inr hn
        have hmidc := ih ic p left s caps mid hmid n hmem
        rw [← hres]
        simp [setCap, getCap, hng, hmidc]
    | lbNeg a =>
      have hcap : (getCap n caps).isSome = true := by
        rcases hn with hn | hn
        · simp [guar] at hn
        · exact hn
      simp only [matchList] at h
      cases left with
      | nil => simp at h; simp [h, hcap]
      | cons c t =>
        by_cases hmc : a.matchesChar ic c = true
        · simp [hmc] at h
        · simp [hmc] at h; simp [h, hcap]

theorem findAt_caps (r : CompiledRegex) (left s rest : Str) (caps : Caps)
    (h : findAt r left s = some (rest, caps)) :
    ∀ n ∈ guar r.re, (getCap n caps).isSome = true := by
  intro n hn
  unfold findAt at h
  cases hm : matchList (enoughFuel r.re s) r.ignoreCase r.re left s [] with
  | nil => rw [hm] at h; simp at h
  | cons res tl =>
    rw [hm] at h
    simp at h
    have := matchList_caps (enoughFuel r.re s) r.ignoreCase r.re left s [] res
      (by rw [hm]; exact List.mem_cons_self _ _) n (Or.inl hn)
    have hc : res.2.2 = caps := congrArg Prod.snd h
    rw [← hc]
    exact this

theorem searchSplit_caps (r : CompiledRegex) :
    ∀ (s left p m : Str) (cp : Caps) (rest : Str),
      searchSplit r left s = some (p, m, cp, rest) →
        ∀ n ∈ guar r.re, (getCap n cp).isSome = true := by
  intro s
  induction s with
  | nil =>
    intro left p m cp rest h n hn
    simp only [searchSplit] at h
    cases hf : findAt r left [] with
    | none => rw [hf] at h; simp at h
    | some v =>
      rw [hf] at h
      obtain ⟨rst, caps⟩ := v
      injection h with h2
      simp only [Prod.mk.injEq] at h2
      rw [← h2.2.2.1]
      exact findAt_caps r left [] rst caps hf n hn
  | cons c t ihs =>
    intro left p m cp rest h n hn
    simp only [searchSplit] at h
    cases hf : findAt r left (c :: t) with
    | none =>
      rw [hf] at h
      cases hr : searchSplit r (c :: left) t with
      | none => rw [hr] at h; simp at h
      | some v =>
        rw [hr] at h
        obtain ⟨p2, m2, cp2, rest2⟩ := v
        injection h with h2
        simp only [Prod.mk.injEq] at h2
        rw [← h2.2.2.1]
        exact ihs (c :: left) p2 m2 cp2 rest2 hr n hn
    | some v =>
      rw [hf] at h
      obtain ⟨rst, caps⟩ := v
      injection h with h2
      simp only [Prod.mk.injEq] at h2
      rw [← h2.2.2.1]
      exact findAt_caps r left (c :: t) rst caps hf n hn

theorem scan_caps (r : CompiledRegex) :
    ∀ (fuel : Nat) (left s : Str),
      ∀ seg ∈ (scan r fuel left s).1,
        ∀ n ∈ guar r.re, (getCap n seg.2.2).isSome = true := by
  intro fuel
  induction fuel with
  | zero => intro left s seg h; simp [scan] at h
  | succ fuel ih =>
    intro left s seg h n hn
    simp only [scan] at h
    cases hss : searchSplit r left s with
    | none => rw [hss] at h; simp at h
    | some v =>
      obtain ⟨p, m, caps, rest⟩ := v
      rw [hss] at h
      have hcaps := searchSplit_caps r s left p m caps rest hss n hn
      by_cases hm : m.isEmpty
      · simp only [hm, if_true] at h
        cases rest with
        | nil =>
          simp at h
          simp [h, hcaps]
        | cons c rest2 =>
          dsimp only at h
          rw [List.mem_cons] at h
          rcases h with h | h
          · simp [h, hcaps]
          · cases hsc : scan r fuel (c :: List.reverseAux m (List.reverseAux p left)) rest2 with
            | mk segs tail =>
              rw [hsc] at h
              cases segs with
              | nil => simp [shiftChar] at h
              | cons g gs =>
                obtain ⟨gp, gm, gc⟩ := g
                simp only [shiftChar] at h
                rcases List.mem_cons.mp h with h | h
                · have hg : (gp, gm, gc) ∈ (scan r fuel (c :: List.reverseAux m (List.reverseAux p left)) rest2).1 := by
                    rw [hsc]; exact List.mem_cons_self _ _
                  have := ih (c :: List.reverseAux m (List.reverseAux p left)) rest2 (gp, gm, gc) hg n hn
                  rw [h]
                  exact this
                · have hg : seg ∈ (scan r fuel (c :: List.reverseAux m (List.reverseAux p left)) rest2).1 := by
                    rw [hsc]; exact List.mem_cons_of_mem _ h
                  exact ih (c :: List.reverseAux m (List.reverseAux p left)) rest2 seg hg n hn
      · simp only [hm, Bool.false_eq_true, if_false] at h
        rw [List.mem_cons] at h
        rcases h with h | h
        · simp [h, hcaps]
        · exact ih (List.reverseAux m (List.reverseAux p left)) rest seg h n hn

theorem applyTemplate_isSome (items : List TItem) (caps : Caps)
    (h : ∀ it ∈ items, ∀ n, it = .ref n → (getCap n caps).isSome = true) :
    (applyTemplate items caps).isSome = true := by
  induction items with
  | nil => simp [applyTemplate]
  | cons it rest ih =>
    have hrest := ih (fun x hx n hn => h x (List.mem_cons_of_mem _ hx) n hn)
    cases it with
    | lit c =>
      simp only [applyTemplate]
      cases hr : applyTemplate rest caps with
      | none => rw [hr] at hrest; simp at hrest
      | some v => simp
    | ref n =>
      have hcap := h (.ref n) (List.mem_cons_self _ _) n rfl
      simp only [applyTemplate]
      cases hc : getCap n caps with
      | none => rw [hc] at hcap; simp at hcap
      | some v =>
        cases hr : applyTemplate rest caps with
        | none => rw [hr] at hrest; simp at hrest
        | some w => simp

theorem omapM_isSome (f : α → Option β) (l : List α)
    (h : ∀ a ∈ l, (f a).isSome = true) : (omapM f l).isSome = true := by
  induction l with
  | nil => simp [omapM]
  | cons a rest ih =>
    have ha := h a (List.mem_cons_self _ _)
    have hrest := ih (fun x hx => h x (List.mem_cons_of_mem _ hx))
    simp only [omapM]
    cases hfa : f a with
    | none => rw [hfa] at ha; simp at ha
    | some b =>
      cases hr : omapM f rest with
      | none => rw [hr] at hrest; simp at hrest
      | some bs => simp

/-- re.sub cannot fail when the template parses and every reference is
guaranteed to capture. -/
theorem reSubL_isSome (r : CompiledRegex) (tmpl s : Str) (items : List TItem)
    (hp : parseTemplate r tmpl = some items)
    (hr : items.all (fun it => TItem.refOk (guar r.re) it) = true) :
    (reSubL r tmpl s).isSome = true := by
  simp only [reSubL, hp]
  have hmap : (omapM
      (fun seg => (applyTemplate items seg.2.2).map (fun rep => seg.1 ++ rep))
      (scanAll r s).1).isSome = true := by
    apply omapM_isSome
    intro seg hseg
    have hat : (applyTemplate items seg.2.2).isSome = true := by
      apply applyTemplate_isSome
      intro it hit n hn
      have hok := List.all_eq_true.mp hr it hit
      rw [hn] at hok
      simp only [TItem.refOk] at hok
      have hng : n ∈ guar r.re := of_decide_eq_true hok
      exact scan_caps r (s.length + 1) [] s seg hseg n hng
    cases ha : applyTemplate items seg.2.2 with
    | none => rw [ha] at hat; simp at hat
    | some v => simp
  cases hm : omapM
      (fun seg => (applyTemplate items seg.2.2).map (fun rep => seg.1 ++ rep))
      (scanAll r s).1 with
  | none => rw [hm] at hmap; simp at hmap
  | some parts => simp

/-- replace_all_references cannot fail when the template check holds. -/
theorem replace_all_references_isSome (al : MarkdownAutoLinker)
    (markdown : Str) (skip_links : Bool) (h : tmplRefsOk al = true) :
    (al.replace_all_references markdown skip_links).isSome = true := by
  obtain ⟨items, hp, hitems⟩ :
      ∃ items, parseTemplate al.find_pattern al.replace_pattern = some items ∧
        items.all (fun it => TItem.refOk (guar al.find_pattern.re) it) = true := by
    unfold tmplRefsOk at h
    cases hq : parseTemplate al.find_pattern al.replace_pattern with
    | none => rw [hq] at h; simp at h
    | some items => rw [hq] at h; exact ⟨items, rfl, h⟩
  cases skip_links with
  | false =>
    simp only [MarkdownAutoLinker.replace_all_references, if_false, Bool.false_eq_true]
    exact reSubL_isSome al.find_pattern al.replace_pattern markdown items hp hitems
  | true =>
    simp only [MarkdownAutoLinker.replace_all_references, if_true]
    have hmap : (omapM
        (fun pu => (reSubL al.find_pattern al.replace_pattern pu.1).map (fun x => x ++ pu.2))
        ((reSplitL LINK_PATTERN_C markdown).zip
          (reFindallL LINK_PATTERN_C markdown ++ [[]]))).isSome = true := by
      apply omapM_isSome
      intro pu hpu
      have hs := reSubL_isSome al.find_pattern al.replace_pattern pu.1 items hp hitems
      cases hsv : reSubL al.find_pattern al.replace_pattern pu.1 with
      | none => rw [hsv] at hs; simp at hs
      | some v => simp
    cases hm : omapM
        (fun pu => (reSubL al.find_pattern al.replace_pattern pu.1).map (fun x => x ++ pu.2))
        ((reSplitL LINK_PATTERN_C markdown).zip
          (reFindallL LINK_PATTERN_C markdown ++ [[]])) with
    | none => rw [hm] at hmap; simp at hmap
    | some buf => simp

/-- re.sub returns its input unchanged when the pattern does not occur
and the template is valid. -/
theorem reSubL_noMatch (r : CompiledRegex) (tmpl s : Str) (items : List TItem)
    (hp : parseTemplate r tmpl = some items) (hs : reSearch r s = false) :
    reSubL r tmpl s = some s := by
  have hnone : searchSplit r [] s = none := by
    unfold reSearch at hs
    cases hss : searchSplit r [] s with
    | none => rfl
    | some v => rw [hss] at hs; simp at hs
  have hscan : scanAll r s = ([], s) := by
    unfold scanAll
    simp only [scan, hnone]
  simp [reSubL, hp, hscan, omapM]

theorem omapM_zip (f : Str → Option Str) :
    ∀ (ps us subs : List Str), ps.length = us.length →
      omapM f ps = some subs →
      omapM (fun pu => (f pu.1).map (fun x => x ++ pu.2)) (ps.zip us)
        = some (List.zipWith (fun a b => a ++ b) subs us) := by
  intro ps
  induction ps with
  | nil =>
    intro us subs hlen h
    have hus : us = [] := List.eq_nil_of_length_eq_zero hlen.symm
    simp only [omapM, Option.some.injEq] at h
    subst hus
    rw [← h]
    simp [omapM]
  | cons p ps2 ih =>
    intro us subs hlen h
    cases us with
    | nil => simp at hlen
    | cons u us2 =>
      simp only [omapM] at h
      cases hfp : f p with
      | none => rw [hfp] at h; simp at h
      | some b =>
        rw [hfp] at h
        cases hrest : omapM f ps2 with
        | none => rw [hrest] at h; simp at h
        | some bs =>
          rw [hrest] at h
          simp only [Option.some.injEq] at h
          have hlen2 : ps2.length = us2.length := by simpa using hlen
          have hthis := ih us2 bs hlen2 hrest
          rw [← h, List.zip_cons_cons]
          simp only [omapM, hfp, Option.map_some, hthis, List.zipWith_cons_cons]
          simp

theorem split_findall_len (r : CompiledRegex) (s : Str) :
    (reSplitL r s).length = (reFindallL r s ++ [[]]).length := by
  by_cases hng : (r.ngroups == 1) = true
  · simp [reSplitL, reFindallL, hng]
  · simp only [Bool.not_eq_true] at hng
    simp [reSplitL, reFindallL, hng]

theorem validateEntries_isErr :
    ∀ es : List AEntry,
      ((validateEntries es) == EntriesResult.err) = es.any entryInvalid := by
  intro es
  induction es with
  | nil => rfl
  | cons e rest ih =>
    rw [List.any_cons]
    cases hrp : e.referencePrefixStr with
    | none =>
      have h1 : validateEntries (e :: rest) = .err := by
        unfold validateEntries
        rw [hrp]
      have h2 : entryInvalid e = true := by
        unfold entryInvalid
        rw [hrp]
      rw [h1, h2]
      rfl
    | some rp =>
      cases htu : e.target_url with
      | none =>
        have h1 : validateEntries (e :: rest) = .err := by
          unfold validateEntries
          rw [hrp, htu]
        have h2 : entryInvalid e = true := by
          unfold entryInvalid
          rw [hrp, htu]
        rw [h1, h2]
        rfl
      | some tu =>
        cases hall : ((if (reFindallL VARIABLE_PATTERN_C rp).isEmpty
              then [str "<num>"] else reFindallL VARIABLE_PATTERN_C rp).all
                (fun v => containsSub v tu)) with
        | false =>
          have h1 : validateEntries (e :: rest) = .err := by
            simp only [validateEntries, hrp, htu, hall, Bool.false_eq_true, if_false]
          have h2 : entryInvalid e = true := by
            simp only [entryInvalid, hrp, htu, hall, Bool.not_false]
          rw [h1, h2]
          rfl
        | true =>
          have h2 : entryInvalid e = false := by
            simp only [entryInvalid, hrp, htu, hall, Bool.not_true]
          have h1 : validateEntries (e :: rest) =
              (match validateEntries rest with
               | .ok es2 =>
                 EntriesResult.ok
                   (⟨some (if (reFindallL VARIABLE_PATTERN_C rp).isEmpty
                           then rp ++ str "<num>" else rp), some tu⟩ :: es2)
               | .err => .err) := by
            simp only [validateEntries, hrp, htu, hall, if_true]
          rw [h1, h2, Bool.false_or]
          cases hrest : validateEntries rest with
          | ok es2 =>
            rw [hrest] at ih
            rw [← ih]
            try rfl
          | err =>
            rw [hrest] at ih
            rw [← ih]
            try rfl

/-- C1 counterexample: the configuration with reference_prefix
A num-token B num-token and target_url x num-token passes validation,
yet replace_autolink_references fails (raises in Python: the spliced
pattern redefines the named group num), even on input that contains no
reference.  This refutes the claim that successful validation makes
rewriting total. -/
theorem pyrosa_C1_counterexample :
    (run_validation (.listVal [⟨some (str "A<num>B<num>"), some (str "x<num>")⟩])).isErr
        = false
    ∧ replace_autolink_references (str "hello")
        [(str "A<num>B<num>", str "x<num>")] false = none := by
  constructor
  · decide
  · decide

/-- C1 amended: rewriting returns normally on every input markdown and
skip_links flag provided each definition's find pattern compiles and its
replacement template is valid (every reference resolves to a group
guaranteed to capture); validation alone does not ensure this. -/
theorem pyrosa_C1_amended :
    ∀ (autolinks : List (Str × Str)) (markdown : Str) (skip_links : Bool),
      (∀ p ∈ autolinks,
        (MarkdownAutoLinker.make p.1 p.2).map tmplRefsOk = some true) →
      (replace_autolink_references markdown autolinks skip_links).isSome = true := by
  intro autolinks
  induction autolinks with
  | nil => intro markdown sk h; rfl
  | cons p rest ih =>
    obtain ⟨rp, tu⟩ := p
    intro markdown sk h
    have hp := h (rp, tu) (List.mem_cons_self _ _)
    cases hmk : MarkdownAutoLinker.make rp tu with
    | none => rw [hmk] at hp; simp at hp
    | some al =>
      rw [hmk] at hp
      simp at hp
      have hrar :
          (if al.has_reference markdown
           then al.replace_all_references markdown sk
           else some markdown).isSome = true := by
        by_cases hb : al.has_reference markdown = true
        · simp only [hb, if_true]
          exact replace_all_references_isSome al markdown sk hp
        · simp only [Bool.not_eq_true] at hb
          simp [hb]
      simp only [replace_autolink_references, hmk]
      cases hres : (if al.has_reference markdown
          then al.replace_all_references markdown sk
          else some markdown) with
      | none => rw [hres] at hrar; simp at hrar
      | some result =>
        exact ih result sk (fun q hq => h q (List.mem_cons_of_mem _ hq))

/-- C1 witness: a concrete valid definition on which the amended theorem
applies. -/
theorem pyrosa_C1_witness :
    (replace_autolink_references (str "See GH-1")
      [(str "GH-<num>", str "https://x/<num>")] false).isSome = true :=
  pyrosa_C1_amended [(str "GH-<num>", str "https://x/<num>")] (str "See GH-1") false
    (by decide)

/-- C2 counterexample: with reference_prefix G dot hyphen num-token, the
input Gx-1 does not contain the literal text G dot hyphen, yet the
matcher matches it and the rewriter links it: the dot was interpreted as
a regex wildcard, not matched literally.  This refutes the claim that
every character outside variable tokens is matched exactly. -/
theorem pyrosa_C2_counterexample :
    containsSub (str "G.-") (str "Gx-1") = false
    ∧ replace_autolink_references (str "Gx-1")
        [(str "G.-<num>", str "u<num>")] false = some (str "[Gx-1](u1)") := by
  constructor
  · decide
  · decide

/-- C2 amended: characters of reference_prefix outside variable tokens
are spliced into the regex source verbatim, with no escaping, so regex
metacharacters keep their regex meaning; in particular a prefix free of
variable tokens is embedded between the lookbehind wrapper and the
closing parenthesis character for character, and a dot in the prefix
matches arbitrary characters. -/
theorem pyrosa_C2_amended :
    (∀ reference : Str, reSearch VARIABLE_PATTERN_C reference = false →
      findPatternSrcOf reference
        = some (str "(?<![#\\[/])(?P<" ++ FULL_REF_TAG ++ str ">" ++ reference ++ str ")"))
    ∧ (MarkdownAutoLinker.make (str "G.-<num>") (str "u<num>")).map
        (fun al => al.has_reference (str "Gz-9")) = some true := by
  constructor
  · intro reference h
    have hps : (parseTemplate VARIABLE_PATTERN_C FIND_SUB_TEMPLATE).isSome = true := by
      decide
    obtain ⟨items, hp⟩ := Option.isSome_iff_exists.mp hps
    have hsub := reSubL_noMatch VARIABLE_PATTERN_C FIND_SUB_TEMPLATE reference items hp h
    simp [findPatternSrcOf, hsub]
  · decide

/-- C2 amended witness: a token-free reference is spliced verbatim. -/
theorem pyrosa_C2_witness :
    findPatternSrcOf (str "XY-")
      = some (str "(?<![#\\[/])(?P<" ++ FULL_REF_TAG ++ str ">" ++ str "XY-" ++ str ")") :=
  pyrosa_C2_amended.1 (str "XY-") (by decide)

/-- C3: with filter_links enabled, the already-linked GH-123 is left
untouched and only GH-456 is linked. -/
theorem pyrosa_C3 :
    replace_autolink_references (str "[GH-123](http://other) and GH-456")
      [(str "GH-<num>", str "https://x/issues/<num>")] true
    = some (str "[GH-123](http://other) and [GH-456](https://x/issues/456)") := by
  decide

/-- C4: rewriting links the bare reference, and rewriting the output a
second time returns it unchanged because the bracket before the would-be
match triggers the negative lookbehind. -/
theorem pyrosa_C4 :
    replace_autolink_references (str "See GH-123 for details")
      [(str "GH-<num>", str "https://x/issues/<num>")] false
      = some (str "See [GH-123](https://x/issues/123) for details")
    ∧ replace_autolink_references (str "See [GH-123](https://x/issues/123) for details")
      [(str "GH-<num>", str "https://x/issues/<num>")] false
      = some (str "See [GH-123](https://x/issues/123) for details") := by
  constructor
  · decide
  · decide

/-- C5: an entry whose reference_prefix has no variable token gets the
default num token appended, and validation succeeds exactly when
target_url already contains that token. -/
theorem pyrosa_C5 :
    ∀ rp tu : Str, reFindallL VARIABLE_PATTERN_C rp = [] →
      (containsSub (str "<num>") tu = true →
        run_validation (.listVal [⟨some rp, some tu⟩])
          = .ok (.listVal [⟨some (rp ++ str "<num>"), some tu⟩]))
      ∧ (containsSub (str "<num>") tu = false →
        run_validation (.listVal [⟨some rp, some tu⟩]) = .err) := by
  intro rp tu hvars
  constructor
  · intro hin
    simp [run_validation, validateEntries, hvars, hin]
  · intro hout
    simp [run_validation, validateEntries, hvars, hout]

/-- C5 witness: prefix GH- with target containing the num token is
accepted and suffixed; the same prefix with a target lacking the token
is rejected. -/
theorem pyrosa_C5_witness :
    run_validation (.listVal [⟨some (str "GH-"), some (str "https://x/<num>")⟩])
      = .ok (.listVal [⟨some (str "GH-" ++ str "<num>"), some (str "https://x/<num>")⟩]) :=
  (pyrosa_C5 (str "GH-") (str "https://x/<num>") (by decide)).1 (by decide)

/-- C6: validation fails exactly when the value is not a list or some
entry lacks a key or declares a variable (implicitly the num token)
missing from target_url; in particular the REF id entry with a fixed
target is rejected. -/
theorem pyrosa_C6 :
    (∀ v : ConfigValue, (run_validation v).isErr = configInvalid v)
    ∧ run_validation
        (.listVal [⟨some (str "REF-<id>"), some (str "https://x/fixed")⟩]) = .err := by
  constructor
  · intro v
    cases v with
    | nonList => rfl
    | listVal es =>
      have h := validateEntries_isErr es
      simp only [run_validation, configInvalid]
      cases hrest : validateEntries es with
      | ok es2 =>
        rw [hrest] at h
        rw [← h]
        rfl
      | err =>
        rw [hrest] at h
        rw [← h]
        rfl
  · decide

/-- C7: a two-variable definition binds both variables and builds the
target from both captures. -/
theorem pyrosa_C7 :
    replace_autolink_references (str "TASK-abc-7")
      [(str "TASK-<proj>-<num>", str "https://x/<proj>/<num>")] false
    = some (str "[TASK-abc-7](https://x/abc/7)") := by
  decide

/-- C8: matching is case-insensitive and the visible link text keeps the
original casing. -/
theorem pyrosa_C8 :
    replace_autolink_references (str "see gh-123")
      [(str "GH-<num>", str "https://x/issues/<num>")] false
    = some (str "see [gh-123](https://x/issues/123)") := by
  decide

/-- C9: when no definition's compiled matcher occurs in the input, the
rewriter returns the input unchanged (the empty definitions list is the
base case). -/
theorem pyrosa_C9 :
    ∀ (autolinks : List (Str × Str)) (markdown : Str) (skip_links : Bool),
      (∀ p ∈ autolinks,
        (MarkdownAutoLinker.make p.1 p.2).map
          (fun al => al.has_reference markdown) = some false) →
      replace_autolink_references markdown autolinks skip_links = some markdown := by
  intro autolinks
  induction autolinks with
  | nil => intro markdown sk h; rfl
  | cons p rest ih =>
    obtain ⟨rp, tu⟩ := p
    intro markdown sk h
    have hp := h (rp, tu) (List.mem_cons_self _ _)
    cases hmk : MarkdownAutoLinker.make rp tu with
    | none => rw [hmk] at hp; simp at hp
    | some al =>
      rw [hmk] at hp
      simp at hp
      simp only [replace_autolink_references, hmk, hp, Bool.false_eq_true, if_false]
      exact ih markdown sk (fun q hq => h q (List.mem_cons_of_mem _ hq))

/-- C9 witness: a definition that does not occur leaves the text
unchanged. -/
theorem pyrosa_C9_witness :
    replace_autolink_references (str "nothing to see here")
      [(str "GH-<num>", str "https://x/<num>")] false
      = some (str "nothing to see here") :=
  pyrosa_C9 [(str "GH-<num>", str "https://x/<num>")] (str "nothing to see here") false
    (by decide)

/-- C10: splitting on the link pattern and re-interleaving the pieces
with the findall matches plus a trailing empty string reconstructs the
input exactly; consequently in skip_links mode replace_all_references
rewrites only the gaps and re-inserts every link span verbatim in its
original position. -/
theorem pyrosa_C10 :
    ∀ s : Str,
      (List.zipWith (fun a b => a ++ b) (reSplitL LINK_PATTERN_C s)
        (reFindallL LINK_PATTERN_C s ++ [[]])).flatten = s
      ∧ ∀ (al : MarkdownAutoLinker) (subs : List Str),
          omapM (fun p => reSubL al.find_pattern al.replace_pattern p)
            (reSplitL LINK_PATTERN_C s) = some subs →
          al.replace_all_references s true
            = some (List.zipWith (fun a b => a ++ b) subs
                (reFindallL LINK_PATTERN_C s ++ [[]])).flatten := by
  intro s
  refine ⟨link_reconstruct s, ?_⟩
  intro al subs hsubs
  have hlen := split_findall_len LINK_PATTERN_C s
  have hz := omapM_zip (fun p => reSubL al.find_pattern al.replace_pattern p)
      (reSplitL LINK_PATTERN_C s) (reFindallL LINK_PATTERN_C s ++ [[]]) subs hlen hsubs
  simp only [MarkdownAutoLinker.replace_all_references, if_true, hz]

/-- C10 witness: on a concrete input the link span is preserved and the
gaps are rewritten. -/
theorem pyrosa_C10_witness :
    ((MarkdownAutoLinker.make (str "GH-<num>") (str "u<num>")).getD
        ⟨defaultCR, []⟩).replace_all_references (str "[a](b) GH-7") true
      = some (List.zipWith (fun a b => a ++ b)
          [str "", str " [GH-7](u7)"]
          (reFindallL LINK_PATTERN_C (str "[a](b) GH-7") ++ [[]])).flatten :=
  (pyrosa_C10 (str "[a](b) GH-7")).2 _ _ (by decide)
